import Mathlib

/-!
Verification development for NPTFit-Sim: a simulator that draws a source
catalog from a number-count distribution and a spatial template by rejection
sampling (rej_samp), and renders the catalog into a pixelized counts map
(make_map).  The repository ships `setup.py`, which is embedded directly;
the two Cython modules `rej_samp.pyx` and `make_map.pyx` are not in the
tree, so their behaviour is modelled from the design document (spec.md).
All numerics use exact rationals.
-/

namespace NPTFitSim

/-- A native extension module declared in `setup.py`: a module name and the
list of source files it is compiled from. -/
structure Extension where
  name : String
  sources : List String
deriving DecidableEq, Repr

/-- The `extensions` list of `setup.py`, embedded verbatim: two extension
modules, `rej_samp` from `rej_samp.pyx` and `make_map` from `make_map.pyx`. -/
def extensions : List Extension :=
  [⟨"rej_samp", ["rej_samp.pyx"]⟩, ⟨"make_map", ["make_map.pyx"]⟩]

/-- The directory returned by `numpy.get_include()`, an opaque-to-us path
constant supplied by NumPy at build time.  Embedded as an abstract token. -/
def numpy_get_include : String := "numpy/core/include"

/-- `cythonize` compiles each `.pyx` extension in place; at the level of the
declared module list it is the identity on the declarations. -/
def cythonize (exts : List Extension) : List Extension := exts

/-- The keyword arguments of the `setup(...)` call in `setup.py`. -/
structure SetupArgs where
  ext_modules : List Extension
  include_dirs : List String
deriving DecidableEq, Repr

/-- The `setup(...)` call of `setup.py`, embedded verbatim:
`ext_modules = cythonize(extensions)`, `include_dirs = [numpy.get_include()]`. -/
def setup_args : SetupArgs :=
  { ext_modules := cythonize extensions
    include_dirs := [numpy_get_include] }

/-- A point source: a host pixel index and a flux.  Modelled from the spec:
`Source` is "an immutable record {position (pixel index), flux}". -/
structure Source where
  pos : ℕ
  flux : ℚ
deriving DecidableEq, Repr

/-- Modelled from the spec (make_map.pyx missing from src/): the response
kernel is "a small numeric array", here a list of (pixel offset, weight)
pairs on a one-dimensional pixel grid. -/
abbrev Kernel : Type := List (ℤ × ℚ)

/-- Modelled from the spec: the expected contribution of one source to pixel
`p`, "convolving its point flux with response_kernel centered at the
source's position".  A kernel entry at offset `d` lands on pixel
`s.pos + d` exactly (no wraparound). -/
def kerContrib (ker : Kernel) (s : Source) (p : ℕ) : ℚ :=
  (ker.map (fun dw => if (s.pos : ℤ) + dw.1 = (p : ℤ) then s.flux * dw.2 else 0)).sum

/-- Modelled from the spec: the deterministic pre-Poisson intensity at pixel
`p`, "accumulate fractional contributions additively across all sources". -/
def render_intensity (ker : Kernel) (cat : List Source) (p : ℕ) : ℚ :=
  (cat.map (fun s => kerContrib ker s p)).sum

/-- Modelled from the spec: the full pre-Poisson intensity map over the pixel
grid `0, …, npix-1`.  Contributions falling outside the grid are truncated:
they appear at no pixel of the map. -/
def intensity_map (npix : ℕ) (ker : Kernel) (cat : List Source) : List ℚ :=
  (List.range npix).map (render_intensity ker cat)

/-- Modelled from the spec: the part of the kernel weight that lands inside
the grid when the kernel is centered at pixel `pos` (the in-bounds fraction
of the footprint, before scaling by the flux). -/
def inBoundsWeight (npix : ℕ) (ker : Kernel) (pos : ℕ) : ℚ :=
  (ker.map (fun dw =>
    if 0 ≤ (pos : ℤ) + dw.1 ∧ (pos : ℤ) + dw.1 < (npix : ℤ) then dw.2 else 0)).sum

/-- Modelled from the spec (rej_samp.pyx missing from src/): the
`ProposalEnvelope` is "an analytic, easily-sampleable distribution"; it
carries its density and an inverse-CDF style sampling map taking a uniform
variate in [0,1] to a flux (restricted to the sampling range by the
caller-established contract). -/
structure ProposalEnvelope where
  density : ℚ → ℚ
  sample : ℚ → ℚ

/-- Modelled from the spec: `sample_flux(distribution, envelope, flux_min,
flux_max)`.  The injected random stream is a list of pairs (r, s) of unit
variates, one pair per loop iteration: the candidate is `x = envelope.sample
r` (a draw from the envelope restricted to [flux_min, flux_max]), the
comparison value is `u = s * envelope.density x` (uniform in
[0, envelope(x)]), and `x` is accepted when `u ≤ distribution(x)`, else the
loop repeats.  `none` models an exhausted stream (nontermination). -/
def sample_flux (dist : ℚ → ℚ) (env : ProposalEnvelope) (fmin fmax : ℚ) :
    List (ℚ × ℚ) → Option (ℚ × List (ℚ × ℚ))
  | [] => none
  | (r, s) :: rest =>
      let x := env.sample r
      if s * env.density x ≤ dist x then some (x, rest)
      else sample_flux dist env fmin fmax rest

/-- Modelled from the spec: the per-pixel maximum weight of a spatial
template, the bound "a uniform value against the per-pixel maximum weight"
is drawn against. -/
def maxWeight (T : List ℚ) : ℚ := T.foldr max 0

/-- Modelled from the spec: the eligible pixels of a spatial template, the
pixels a candidate is "drawn uniformly among". -/
def eligiblePixels (T : List ℚ) : List ℕ :=
  (List.range T.length).filter (fun i => 0 < T.getD i 0)

/-- Modelled from the spec: map a unit variate `r` to a uniform choice among
a finite list of pixels. -/
def uniformPick (l : List ℕ) (r : ℚ) : ℕ :=
  l.getD (Int.toNat ⌊r * l.length⌋) 0

/-- Modelled from the spec: `sample_position(spatial_template)`, the
"equivalent rejection procedure over the discretized template: draw a
candidate pixel uniformly among eligible pixels, draw a uniform value
against the per-pixel maximum weight, accept proportional to the pixel's
relative intensity". -/
def sample_position (T : List ℚ) : List (ℚ × ℚ) → Option (ℕ × List (ℚ × ℚ))
  | [] => none
  | (r, s) :: rest =>
      let i := uniformPick (eligiblePixels T) r
      if s * maxWeight T ≤ T.getD i 0 then some (i, rest)
      else sample_position T rest

/-- Modelled from the spec: one accepted draw of the Catalog Builder, "call
Rejection Sampler for flux, then for position, pair them into a Source". -/
def draw_source (dist : ℚ → ℚ) (env : ProposalEnvelope) (fmin fmax : ℚ)
    (T : List ℚ) (stream : List (ℚ × ℚ)) : Option (Source × List (ℚ × ℚ)) :=
  match sample_flux dist env fmin fmax stream with
  | none => none
  | some (f, s1) =>
      match sample_position T s1 with
      | none => none
      | some (p, s2) => some (⟨p, f⟩, s2)

/-- Modelled from the spec: the count-based Catalog Builder, "stop after
exactly K accepted sources".  Generic in the sampler's state `σ`; the last
component of the result counts the calls made to the Rejection Sampler
(one `drawOne` call per accepted source). -/
def build_count {σ : Type} (drawOne : σ → Option (Source × σ)) :
    ℕ → σ → Option (List Source × σ × ℕ)
  | 0, s => some ([], s, 0)
  | K + 1, s =>
      match drawOne s with
      | none => none
      | some (src, s1) =>
          match build_count drawOne K s1 with
          | none => none
          | some (cat, s2, n) => some (src :: cat, s2, n + 1)

/-- Configuration errors a generation call rejects eagerly. -/
inductive ConfigError where
  | emptySupport
  | invalidInput
deriving DecidableEq, Repr

/-- Modelled from the spec: a generation call.  Per the error-handling
design, "empty support (distribution or template identically zero) fails
fast with a configuration error before entering the sampling loop" (the
distribution being probed on the caller-supplied discretized flux grid, the
inputs being "in-memory callables/arrays"), and negative flux bounds are
"rejected eagerly as configuration errors"; otherwise the count-based
builder runs over the injected stream.  `none` models nontermination. -/
def generate (dist : ℚ → ℚ) (env : ProposalEnvelope) (fmin fmax : ℚ)
    (fluxGrid : List ℚ) (T : List ℚ) (K : ℕ) (stream : List (ℚ × ℚ)) :
    Option (Except ConfigError (List Source × List (ℚ × ℚ) × ℕ)) :=
  if (∀ v ∈ fluxGrid.map dist, v = 0) ∨ (∀ w ∈ T, w = 0) then
    some (.error .emptySupport)
  else if ¬ (0 ≤ fmin ∧ fmin ≤ fmax) then
    some (.error .invalidInput)
  else
    match build_count (draw_source dist env fmin fmax T) K stream with
    | none => none
    | some r => some (.ok r)

/-- Modelled from the spec: the Poisson realization step consumes the random
stream, one pair per pixel; the draw itself is an injected sampler taking
the accumulated intensity as the mean. -/
def render (npix : ℕ) (ker : Kernel) (cat : List Source)
    (poissonDraw : ℚ → ℚ × ℚ → ℕ) (stream : List (ℚ × ℚ)) :
    Option (List ℕ × List (ℚ × ℚ)) :=
  if npix ≤ stream.length then
    some (((List.range npix).zip (stream.take npix)).map
            (fun pq => poissonDraw (render_intensity ker cat pq.1) pq.2),
          stream.drop npix)
  else none

/-- Modelled from the spec: generation followed by rendering, threaded over
one injected random stream ("the core consumes a single injected
random-number source per generation run"). -/
def run_pipeline (dist : ℚ → ℚ) (env : ProposalEnvelope) (fmin fmax : ℚ)
    (fluxGrid : List ℚ) (T : List ℚ) (K : ℕ) (npix : ℕ) (ker : Kernel)
    (poissonDraw : ℚ → ℚ × ℚ → ℕ) (stream : List (ℚ × ℚ)) :
    Option (Except ConfigError (List Source × List ℕ)) :=
  match generate dist env fmin fmax fluxGrid T K stream with
  | none => none
  | some (.error e) => some (.error e)
  | some (.ok (cat, rest, _)) =>
      match render npix ker cat poissonDraw rest with
      | none => none
      | some (m, _) => some (.ok (cat, m))

/-- A linear congruential step, the stream generator behind a seed. -/
def lcg (n : ℕ) : ℕ := (1103515245 * n + 12345) % 2147483648

/-- A raw generator word mapped into the unit interval. -/
def unitRand (n : ℕ) : ℚ := (n % 2147483648 : ℕ) / 2147483648

/-- Modelled from the spec: the injected random stream derived from a seed
("callers control seeding for reproducibility"): `fuel` pairs of unit
variates from the linear congruential generator. -/
def seedStream : ℕ → ℕ → List (ℚ × ℚ)
  | _, 0 => []
  | st, n + 1 =>
      (unitRand (lcg st), unitRand (lcg (lcg st))) :: seedStream (lcg (lcg st)) n

/-- Modelled from the spec: a full simulation run as a function of the seed
and the inputs: generation then rendering over the seed-derived stream. -/
def run_sim (dist : ℚ → ℚ) (env : ProposalEnvelope) (fmin fmax : ℚ)
    (fluxGrid : List ℚ) (T : List ℚ) (K : ℕ) (npix : ℕ) (ker : Kernel)
    (poissonDraw : ℚ → ℚ × ℚ → ℕ) (seed fuel : ℕ) :
    Option (Except ConfigError (List Source × List ℕ)) :=
  run_pipeline dist env fmin fmax fluxGrid T K npix ker poissonDraw
    (seedStream seed fuel)

/-! ### Helper lemmas -/

theorem build_count_len {σ : Type} (drawOne : σ → Option (Source × σ)) :
    ∀ (K : ℕ) (s : σ) (cat : List Source) (s2 : σ) (n : ℕ),
      build_count drawOne K s = some (cat, s2, n) → cat.length = K ∧ n = K := by
  intro K
  induction K with
  | zero =>
      intro s cat s2 n h
      simp only [build_count, Option.some.injEq, Prod.mk.injEq] at h
      obtain ⟨h1, _, h3⟩ := h
      subst h1; subst h3; exact ⟨rfl, rfl⟩
  | succ k ih =>
      intro s cat s2 n h
      simp only [build_count] at h
      split at h
      · exact absurd h (by simp)
      · rename_i src s1 hd
        split at h
        · exact absurd h (by simp)
        · rename_i cat1 s3 n1 hb
          simp only [Option.some.injEq, Prod.mk.injEq] at h
          obtain ⟨hc, _, hn⟩ := h
          obtain ⟨hl, hn1⟩ := ih s1 cat1 s3 n1 hb
          subst hc; subst hn
          simp [hl, hn1]

theorem render_len (npix : ℕ) (ker : Kernel) (cat : List Source)
    (poissonDraw : ℚ → ℚ × ℚ → ℕ) (stream : List (ℚ × ℚ))
    (m : List ℕ) (rest : List (ℚ × ℚ))
    (h : render npix ker cat poissonDraw stream = some (m, rest)) :
    m.length = npix := by
  unfold render at h
  split at h
  · next hle =>
      simp only [Option.some.injEq, Prod.mk.injEq] at h
      obtain ⟨hm, _⟩ := h
      subst hm
      simp [List.length_zip, List.length_take]
      omega
  · exact absurd h (by simp)

theorem sum_map_zero {α : Type} (l : List α) :
    (l.map (fun _ => (0 : ℚ))).sum = 0 := by
  induction l with
  | nil => rfl
  | cons a t ih => simp [ih]

theorem sum_map_add {α : Type} (f g : α → ℚ) (l : List α) :
    (l.map (fun x => f x + g x)).sum = (l.map f).sum + (l.map g).sum := by
  induction l with
  | nil => simp
  | cons a t ih => simp [ih]; ring

theorem sum_indicator_range (a : ℤ) (c : ℚ) (n : ℕ) :
    ((List.range n).map (fun p : ℕ => if a = (p : ℤ) then c else 0)).sum =
      if 0 ≤ a ∧ a < (n : ℤ) then c else 0 := by
  induction n with
  | zero =>
      simp only [List.range_zero, List.map_nil, List.sum_nil]
      rw [if_neg (by push_cast; omega)]
  | succ k ih =>
      rw [List.range_succ, List.map_append, List.sum_append, ih]
      simp only [List.map_cons, List.map_nil, List.sum_cons, List.sum_nil,
        add_zero]
      have hk : ((k + 1 : ℕ) : ℤ) = (k : ℤ) + 1 := by push_cast; ring
      rw [hk]
      split_ifs with h1 h2 h3 <;> first | ring1 | (exfalso; omega)

theorem kerContrib_cons (dw : ℤ × ℚ) (kt : Kernel) (s : Source) (p : ℕ) :
    kerContrib (dw :: kt) s p =
      (if (s.pos : ℤ) + dw.1 = (p : ℤ) then s.flux * dw.2 else 0) +
        kerContrib kt s p := by
  simp [kerContrib]

theorem sum_kerContrib (npix : ℕ) (ker : Kernel) (s : Source) :
    ((List.range npix).map (fun p => kerContrib ker s p)).sum =
      s.flux * inBoundsWeight npix ker s.pos := by
  induction ker with
  | nil =>
      have h0 : ∀ p : ℕ, kerContrib [] s p = 0 := fun _ => rfl
      simp only [h0, inBoundsWeight, List.map_nil, List.sum_nil, mul_zero]
      exact sum_map_zero _
  | cons dw kt ih =>
      have hfun : (fun p : ℕ => kerContrib (dw :: kt) s p) = fun p : ℕ =>
          (if (s.pos : ℤ) + dw.1 = (p : ℤ) then s.flux * dw.2 else 0) +
            kerContrib kt s p :=
        funext fun p => kerContrib_cons dw kt s p
      rw [hfun, sum_map_add, ih, sum_indicator_range]
      simp only [inBoundsWeight, List.map_cons, List.sum_cons]
      rw [mul_add]
      congr 1
      split_ifs <;> ring

theorem render_intensity_cons (ker : Kernel) (s : Source) (ct : List Source)
    (p : ℕ) :
    render_intensity ker (s :: ct) p =
      kerContrib ker s p + render_intensity ker ct p := by
  simp [render_intensity]

theorem sum_intensity_map (npix : ℕ) (ker : Kernel) (cat : List Source) :
    (intensity_map npix ker cat).sum =
      (cat.map (fun s => s.flux * inBoundsWeight npix ker s.pos)).sum := by
  induction cat with
  | nil =>
      have h0 : ∀ p : ℕ, render_intensity ker [] p = 0 := fun _ => rfl
      simp only [intensity_map, h0, List.map_nil, List.sum_nil]
      exact sum_map_zero _
  | cons s ct ih =>
      have hfun : render_intensity ker (s :: ct) = fun p : ℕ =>
          kerContrib ker s p + render_intensity ker ct p :=
        funext fun p => render_intensity_cons ker s ct p
      simp only [intensity_map] at ih ⊢
      rw [hfun, sum_map_add, ih, sum_kerContrib]
      simp

theorem inBoundsWeight_of_inbounds (npix : ℕ) (ker : Kernel) (pos : ℕ)
    (h : ∀ dw ∈ ker, 0 ≤ (pos : ℤ) + dw.1 ∧ (pos : ℤ) + dw.1 < (npix : ℤ)) :
    inBoundsWeight npix ker pos = (ker.map Prod.snd).sum := by
  unfold inBoundsWeight
  congr 1
  refine List.map_congr_left ?_
  intro dw hdw
  exact if_pos (h dw hdw)

theorem kerContrib_delta (s : Source) (p : ℕ) :
    kerContrib [(0, 1)] s p = if s.pos = p then s.flux else 0 := by
  simp [kerContrib, Nat.cast_inj]

theorem render_intensity_not_hit (ker : Kernel) (s : Source) (p : ℕ)
    (h : ∀ dw ∈ ker, (s.pos : ℤ) + dw.1 ≠ (p : ℤ)) :
    render_intensity ker [s] p = 0 := by
  have : kerContrib ker s p = 0 := by
    induction ker with
    | nil => rfl
    | cons dw kt ih =>
        rw [kerContrib_cons, if_neg (h dw (by simp)),
          ih fun q hq => h q (by simp [hq])]
        ring
  simp [render_intensity, this]

theorem render_intensity_delta_miss (cat : List Source) (p : ℕ)
    (h : ∀ s ∈ cat, s.pos ≠ p) :
    render_intensity [(0, 1)] cat p = 0 := by
  induction cat with
  | nil => rfl
  | cons s ct ih =>
      rw [render_intensity_cons, kerContrib_delta, if_neg (h s (by simp)),
        ih fun q hq => h q (by simp [hq])]
      ring

theorem render_intensity_delta_hit (cat : List Source) (s : Source)
    (hmem : s ∈ cat) (hdis : cat.Pairwise (fun a b => a.pos ≠ b.pos)) :
    render_intensity [(0, 1)] cat s.pos = s.flux := by
  induction cat with
  | nil => exact absurd hmem (by simp)
  | cons a ct ih =>
      rw [render_intensity_cons, kerContrib_delta]
      rcases List.mem_cons.mp hmem with heq | hmem2
      · subst heq
        rw [if_pos rfl, render_intensity_delta_miss ct s.pos
          fun q hq => Ne.symm ((List.pairwise_cons.mp hdis).1 q hq)]
        ring
      · have hne : a.pos ≠ s.pos := (List.pairwise_cons.mp hdis).1 s hmem2
        rw [if_neg hne, ih hmem2 (List.pairwise_cons.mp hdis).2]
        ring

theorem intensity_map_getD (npix : ℕ) (ker : Kernel) (cat : List Source)
    (p : ℕ) (hp : p < npix) :
    (intensity_map npix ker cat).getD p 0 = render_intensity ker cat p := by
  simp [intensity_map, List.getD_eq_getElem?_getD, List.getElem?_map,
    List.getElem?_range hp]

/-! ### Claim theorems (first group) -/

/-- C10: `setup.py` declares exactly two native extension modules and no
others, `rej_samp` compiled from `rej_samp.pyx` and `make_map` compiled from
`make_map.pyx`, and the `setup` call cythonizes exactly this list with
NumPy's include directory on the include path. -/
theorem setup_two_extension_modules :
    extensions = [⟨"rej_samp", ["rej_samp.pyx"]⟩, ⟨"make_map", ["make_map.pyx"]⟩] ∧
    extensions.length = 2 ∧
    setup_args.ext_modules = cythonize extensions ∧
    numpy_get_include ∈ setup_args.include_dirs := by
  refine ⟨rfl, rfl, rfl, ?_⟩
  simp [setup_args]

/-- C2: the count-based Catalog Builder returns exactly K sources for every
requested K ≥ 0; in particular for K = 0 it returns the empty catalog with
the stream untouched and zero calls made to the Rejection Sampler. -/
theorem build_count_exact {σ : Type} (drawOne : σ → Option (Source × σ))
    (K : ℕ) (s : σ) :
    build_count drawOne 0 s = some ([], s, 0) ∧
    (∀ cat s2 n, build_count drawOne K s = some (cat, s2, n) →
      cat.length = K ∧ n = K) := by
  exact ⟨rfl, fun cat s2 n h => build_count_len drawOne K s cat s2 n h⟩

/-- Witness for C2 at a concrete sampler: two requested sources give a
catalog of length 2 with two sampler calls, and K = 0 gives the empty
catalog with no sampler call. -/
theorem build_count_exact_witness :
    (([⟨0, 1⟩, ⟨1, 1⟩] : List Source).length = 2 ∧ (2 : ℕ) = 2) ∧
    build_count (fun n : ℕ => some (⟨n, 1⟩, n + 1)) 0 0 = some ([], 0, 0) :=
  ⟨(build_count_exact (fun n : ℕ => some (⟨n, 1⟩, n + 1)) 2 0).2
      [⟨0, 1⟩, ⟨1, 1⟩] 2 2 (by decide),
   (build_count_exact (fun n : ℕ => some (⟨n, 1⟩, n + 1)) 0 0).1⟩

/-- C6: if the number-count distribution or the spatial template is
identically zero, a generation call fails fast with the empty-support
configuration error, for every random stream: the explicit check fires
before the sampling loop is entered (the result does not depend on the
stream at all). -/
theorem generate_empty_support_fails_fast (dist : ℚ → ℚ)
    (env : ProposalEnvelope) (fmin fmax : ℚ) (fluxGrid T : List ℚ) (K : ℕ)
    (h : (∀ x, dist x = 0) ∨ (∀ w ∈ T, w = 0)) :
    ∀ stream, generate dist env fmin fmax fluxGrid T K stream =
      some (.error .emptySupport) := by
  intro stream
  unfold generate
  rw [if_pos]
  rcases h with h | h
  · refine Or.inl ?_
    intro v hv
    simp only [List.mem_map] at hv
    obtain ⟨x, _, hx⟩ := hv
    rw [← hx]
    exact h x
  · exact Or.inr h

/-- Witness for C6: the identically-zero distribution is rejected with the
empty-support error on a concrete configuration and the empty stream. -/
theorem generate_empty_support_witness :
    generate (fun _ => 0) ⟨fun _ => 1, fun r => r⟩ 0 1 [1, 2] [1] 5 [] =
      some (.error .emptySupport) :=
  generate_empty_support_fails_fast (fun _ => 0) ⟨fun _ => 1, fun r => r⟩
    0 1 [1, 2] [1] 5 (Or.inl fun _ => rfl) []

/-- C5: round-trip determinism: two runs of generation followed by rendering
from equal seeds and the same inputs produce identical outputs, catalog and
counts map alike — the whole pipeline is a pure function of the seed and the
inputs, threaded over the single injected random stream. -/
theorem run_sim_deterministic (dist : ℚ → ℚ) (env : ProposalEnvelope)
    (fmin fmax : ℚ) (fluxGrid T : List ℚ) (K npix : ℕ) (ker : Kernel)
    (poissonDraw : ℚ → ℚ × ℚ → ℕ) (seed1 seed2 fuel : ℕ)
    (h : seed1 = seed2) :
    run_sim dist env fmin fmax fluxGrid T K npix ker poissonDraw seed1 fuel =
    run_sim dist env fmin fmax fluxGrid T K npix ker poissonDraw seed2 fuel := by
  rw [h]

/-- Witness for C5: a concrete pipeline rerun from the same seed. -/
theorem run_sim_deterministic_witness :
    run_sim (fun _ => 1) ⟨fun _ => 1, fun r => r⟩ 0 1 [1] [1] 1 1 [(0, 1)]
      (fun _ _ => 0) 42 5 =
    run_sim (fun _ => 1) ⟨fun _ => 1, fun r => r⟩ 0 1 [1] [1] 1 1 [(0, 1)]
      (fun _ _ => 0) 42 5 :=
  run_sim_deterministic (fun _ => 1) ⟨fun _ => 1, fun r => r⟩ 0 1 [1] [1] 1 1
    [(0, 1)] (fun _ _ => 0) 42 42 5 rfl

/-- C8: atomicity of a pipeline call: it either diverges and returns nothing
at all, fails atomically with a configuration error exposing neither a
catalog nor a map, or returns a complete result: a catalog of exactly K
sources together with a counts map covering all npix pixels.  No partial
catalog or partial map is ever exposed. -/
theorem run_pipeline_atomic (dist : ℚ → ℚ) (env : ProposalEnvelope)
    (fmin fmax : ℚ) (fluxGrid T : List ℚ) (K npix : ℕ) (ker : Kernel)
    (poissonDraw : ℚ → ℚ × ℚ → ℕ) (stream : List (ℚ × ℚ)) :
    run_pipeline dist env fmin fmax fluxGrid T K npix ker poissonDraw stream
      = none ∨
    (∃ e, run_pipeline dist env fmin fmax fluxGrid T K npix ker poissonDraw
      stream = some (.error e)) ∨
    (∃ cat m, run_pipeline dist env fmin fmax fluxGrid T K npix ker
      poissonDraw stream = some (.ok (cat, m)) ∧
      cat.length = K ∧ m.length = npix) := by
  cases hg : generate dist env fmin fmax fluxGrid T K stream with
  | none => exact Or.inl (by simp [run_pipeline, hg])
  | some r =>
      cases r with
      | error e => exact Or.inr (Or.inl ⟨e, by simp [run_pipeline, hg]⟩)
      | ok v =>
          obtain ⟨cat, rest, n⟩ := v
          have hcat : cat.length = K := by
            unfold generate at hg
            split at hg
            · exact absurd hg (by simp)
            · split at hg
              · exact absurd hg (by simp)
              · cases hb : build_count (draw_source dist env fmin fmax T)
                  K stream with
                | none => rw [hb] at hg; exact absurd hg (by simp)
                | some w =>
                    rw [hb] at hg
                    simp only [Option.some.injEq, Except.ok.injEq] at hg
                    rw [hg] at hb
                    exact (build_count_len _ K stream cat rest n hb).1
          cases hr : render npix ker cat poissonDraw rest with
          | none => exact Or.inl (by simp [run_pipeline, hg, hr])
          | some w =>
              obtain ⟨m, rest2⟩ := w
              exact Or.inr (Or.inr ⟨cat, m, by simp [run_pipeline, hg, hr],
                hcat, render_len npix ker cat poissonDraw rest m rest2 hr⟩)

/-- C3: with the identity (delta) response kernel, for a catalog in which no
two sources share a pixel, the pre-Poisson intensity map holds exactly each
source's flux at its host pixel and zero at every other pixel of the grid
(no spreading). -/
theorem render_identity_kernel (npix : ℕ) (cat : List Source)
    (hdis : cat.Pairwise (fun a b => a.pos ≠ b.pos)) :
    (∀ s ∈ cat, s.pos < npix →
        (intensity_map npix [(0, 1)] cat).getD s.pos 0 = s.flux) ∧
    (∀ p : ℕ, p < npix → (∀ s ∈ cat, s.pos ≠ p) →
        (intensity_map npix [(0, 1)] cat).getD p 0 = 0) := by
  constructor
  · intro s hs hlt
    rw [intensity_map_getD npix _ cat s.pos hlt]
    exact render_intensity_delta_hit cat s hs hdis
  · intro p hp hmiss
    rw [intensity_map_getD npix _ cat p hp]
    exact render_intensity_delta_miss cat p hmiss

/-- Witness for C3 on a concrete two-source catalog over three pixels: the
host pixels carry the fluxes, the free pixel carries zero. -/
theorem render_identity_kernel_witness :
    (intensity_map 3 [(0, 1)] [⟨0, 2⟩, ⟨2, 7⟩]).getD 0 0 = 2 ∧
    (intensity_map 3 [(0, 1)] [⟨0, 2⟩, ⟨2, 7⟩]).getD 1 0 = 0 :=
  ⟨(render_identity_kernel 3 [⟨0, 2⟩, ⟨2, 7⟩] (by decide)).1 ⟨0, 2⟩
      (by decide) (by decide),
   (render_identity_kernel 3 [⟨0, 2⟩, ⟨2, 7⟩] (by decide)).2 1
      (by decide) (by decide)⟩

/-- C4: the pre-Poisson intensity map sums, over all pixels, to the
catalog's fluxes each weighted by the in-bounds fraction of its kernel
footprint; for a normalized kernel this equals the sum of the catalog
fluxes exactly whenever no source's footprint extends past the grid
boundary. -/
theorem render_total_intensity (npix : ℕ) (ker : Kernel) (cat : List Source) :
    (intensity_map npix ker cat).sum =
      (cat.map (fun s => s.flux * inBoundsWeight npix ker s.pos)).sum ∧
    ((ker.map Prod.snd).sum = 1 →
      (∀ s ∈ cat, ∀ dw ∈ ker,
          0 ≤ (s.pos : ℤ) + dw.1 ∧ (s.pos : ℤ) + dw.1 < (npix : ℤ)) →
      (intensity_map npix ker cat).sum = (cat.map Source.flux).sum) := by
  refine ⟨sum_intensity_map npix ker cat, ?_⟩
  intro hnorm hb
  rw [sum_intensity_map npix ker cat]
  congr 1
  refine List.map_congr_left ?_
  intro s hs
  rw [inBoundsWeight_of_inbounds npix ker s.pos (hb s hs), hnorm, mul_one]

/-- Witness for C4: a normalized in-bounds kernel on a one-source catalog
gives a map total equal to the catalog flux. -/
theorem render_total_intensity_witness :
    ([((0 : ℤ), (1 : ℚ))].map Prod.snd).sum = 1 ∧
    (intensity_map 3 [(0, 1)] [⟨1, 5⟩]).sum = ([⟨1, 5⟩].map Source.flux).sum :=
  ⟨by norm_num,
   (render_total_intensity 3 [(0, 1)] [⟨1, 5⟩]).2 (by norm_num) (by decide)⟩

/-- C7: boundary truncation without wraparound: a pixel receives nothing
from a source unless some kernel entry lands on it exactly — in particular
no opposite-edge pixel ever receives an overhanging contribution — and the
map total for a single source is its flux scaled by precisely the in-bounds
fraction of its kernel footprint.  `render_intensity` is total, so an
out-of-range footprint raises no error. -/
theorem render_truncation_no_wraparound (npix : ℕ) (ker : Kernel)
    (s : Source) :
    (∀ p : ℕ, (∀ dw ∈ ker, (s.pos : ℤ) + dw.1 ≠ (p : ℤ)) →
        render_intensity ker [s] p = 0) ∧
    (intensity_map npix ker [s]).sum =
      s.flux * inBoundsWeight npix ker s.pos := by
  constructor
  · intro p hp
    exact render_intensity_not_hit ker s p hp
  · rw [sum_intensity_map npix ker [s]]
    simp

/-- Witness for C7: a half-overhanging kernel at the left edge contributes
nothing to the far pixel and only the in-bounds half of its weight in
total. -/
theorem render_truncation_witness :
    ((∀ dw ∈ [((-1 : ℤ), (1 : ℚ)/2), ((0 : ℤ), (1 : ℚ)/2)],
        ((0 : ℕ) : ℤ) + dw.1 ≠ ((2 : ℕ) : ℤ)) ∧
      render_intensity [(-1, 1/2), (0, 1/2)] [⟨0, 4⟩] 2 = 0) ∧
    (intensity_map 3 [(-1, 1/2), (0, 1/2)] [⟨0, 4⟩]).sum =
      (4 : ℚ) * inBoundsWeight 3 [(-1, 1/2), (0, 1/2)] 0 :=
  ⟨⟨by decide,
    (render_truncation_no_wraparound 3 [(-1, 1/2), (0, 1/2)] ⟨0, 4⟩).1 2
      (by decide)⟩,
   (render_truncation_no_wraparound 3 [(-1, 1/2), (0, 1/2)] ⟨0, 4⟩).2⟩

/-- C1: for every number-count distribution, envelope, and range
[flux_min, flux_max] satisfying the envelope-domination precondition (the
envelope's sampling map landing in the range on unit variates, the stream
carrying unit variates), whenever `sample_flux` returns a flux `x` it was
produced by the rejection loop: the stream splits into initial iterations
each of which drew a candidate from the envelope and a uniform value in
[0, envelope(candidate)] that exceeded the distribution there (so the loop
repeated), followed by the accepted iteration whose candidate is `x` with
`u ≤ distribution(x)`; and the returned flux lies in
[flux_min, flux_max]. -/
theorem sample_flux_rejection (dist : ℚ → ℚ) (env : ProposalEnvelope)
    (fmin fmax : ℚ) (stream : List (ℚ × ℚ)) (x : ℚ) (rest : List (ℚ × ℚ))
    (hdom : ∀ y, fmin ≤ y → y ≤ fmax → dist y ≤ env.density y)
    (hres : ∀ r, 0 ≤ r → r ≤ 1 → fmin ≤ env.sample r ∧ env.sample r ≤ fmax)
    (hstream : ∀ q ∈ stream, 0 ≤ q.1 ∧ q.1 ≤ 1)
    (h : sample_flux dist env fmin fmax stream = some (x, rest)) :
    (fmin ≤ x ∧ x ≤ fmax) ∧
    ∃ dropped r s, stream = dropped ++ (r, s) :: rest ∧ x = env.sample r ∧
      s * env.density x ≤ dist x ∧
      ∀ q ∈ dropped,
        ¬ q.2 * env.density (env.sample q.1) ≤ dist (env.sample q.1) := by
  induction stream with
  | nil => exact absurd h (by simp [sample_flux])
  | cons q t ih =>
      obtain ⟨r, s⟩ := q
      simp only [sample_flux] at h
      by_cases hacc : s * env.density (env.sample r) ≤ dist (env.sample r)
      · rw [if_pos hacc] at h
        simp only [Option.some.injEq, Prod.mk.injEq] at h
        obtain ⟨hx, hrest⟩ := h
        have hr01 := hstream (r, s) (by simp)
        have hrng := hres r hr01.1 hr01.2
        subst hx
        refine ⟨hrng, [], r, s, ?_, rfl, hacc, by simp⟩
        simp [hrest]
      · rw [if_neg hacc] at h
        obtain ⟨hrng, dropped, r1, s1, hsplit, hx, hax, hdrop⟩ :=
          ih (fun q hq => hstream q (List.mem_cons_of_mem _ hq)) h
        refine ⟨hrng, (r, s) :: dropped, r1, s1, ?_, hx, hax, ?_⟩
        · rw [List.cons_append, hsplit]
        · intro q hq
          rcases List.mem_cons.mp hq with hq | hq
          · rw [hq]
            exact hacc
          · exact hdrop q hq

/-- Witness for C1: a constant distribution under a unit envelope accepts
the first candidate 1/2, which lies in the range [0, 1]. -/
theorem sample_flux_rejection_witness :
    ((0 : ℚ) ≤ 1/2 ∧ (1/2 : ℚ) ≤ 1) ∧
    ∃ dropped r s,
      [((1 : ℚ)/2, (1 : ℚ)/2)] = dropped ++ (r, s) :: ([] : List (ℚ × ℚ)) ∧
      (1/2 : ℚ) = r ∧ s * 1 ≤ (1 : ℚ) ∧
      ∀ q ∈ dropped, ¬ q.2 * (1 : ℚ) ≤ (1 : ℚ) :=
  sample_flux_rejection (fun _ => 1) ⟨fun _ => 1, fun r => r⟩ 0 1
    [(1/2, 1/2)] (1/2) []
    (fun _ _ _ => le_refl 1) (fun _ h0 h1 => ⟨h0, h1⟩)
    (by norm_num) (by norm_num [sample_flux])

theorem maxWeight_nonneg (T : List ℚ) : 0 ≤ maxWeight T := by
  induction T with
  | nil => exact le_refl 0
  | cons w t ih => exact le_trans ih (le_max_right w (maxWeight t))

theorem maxWeight_all_zero (T : List ℚ) (h : ∀ w ∈ T, w = 0) :
    maxWeight T = 0 := by
  induction T with
  | nil => rfl
  | cons w t ih =>
      show max w (maxWeight t) = 0
      rw [h w (by simp), ih fun q hq => h q (by simp [hq])]
      simp

theorem maxWeight_single (T : List ℚ) (p : ℕ) (hp : p < T.length)
    (hpos : 0 < T.getD p 0)
    (hz : ∀ i, i < T.length → i ≠ p → T.getD i 0 = 0) :
    maxWeight T = T.getD p 0 := by
  induction T generalizing p with
  | nil => simp at hp
  | cons w t ih =>
      cases p with
      | zero =>
          show max w (maxWeight t) = (w :: t).getD 0 0
          rw [List.getD_cons_zero]
          have hzt : ∀ q ∈ t, q = 0 := by
            intro q hq
            obtain ⟨j, hj, hjq⟩ := List.mem_iff_getElem.mp hq
            have hj1 : j + 1 < (w :: t).length := by simp; omega
            have := hz (j + 1) hj1 (by omega)
            rw [List.getD_cons_succ, List.getD_eq_getElem t 0 hj] at this
            rw [← hjq]
            exact this
          rw [maxWeight_all_zero t hzt]
          rw [List.getD_cons_zero] at hpos
          exact max_eq_left (le_of_lt hpos)
      | succ p1 =>
          have hw : w = 0 := by
            have := hz 0 (by simp) (by omega)
            rw [List.getD_cons_zero] at this
            exact this
          show max w (maxWeight t) = (w :: t).getD (p1 + 1) 0
          rw [List.getD_cons_succ, hw, max_eq_right (maxWeight_nonneg t)]
          refine ih p1 (by simpa using hp) ?_ ?_
          · rw [List.getD_cons_succ] at hpos
            exact hpos
          · intro i hi hne
            have hi1 : i + 1 < (w :: t).length := by simp; omega
            have := hz (i + 1) hi1 (by omega)
            rw [List.getD_cons_succ] at this
            exact this

theorem filter_range_single (q : ℕ → Bool) (p n : ℕ) (hp : p < n)
    (hq : ∀ i, i < n → (q i = true ↔ i = p)) :
    (List.range n).filter q = [p] := by
  induction n with
  | zero => omega
  | succ k ih =>
      rw [List.range_succ, List.filter_append]
      by_cases hpk : p = k
      · subst hpk
        have h1 : (List.range p).filter q = [] := by
          rw [List.filter_eq_nil_iff]
          intro a ha
          have halt : a < p := List.mem_range.mp ha
          intro hqa
          exact absurd ((hq a (by omega)).mp hqa) (by omega)
        have h2 : ([p] : List ℕ).filter q = [p] := by
          have : q p = true := (hq p (by omega)).mpr rfl
          simp [List.filter, this]
        rw [h1, h2]
        rfl
      · have hpk2 : p < k := by omega
        have h1 : (List.range k).filter q = [p] :=
          ih hpk2 fun i hi => hq i (by omega)
        have h2 : ([k] : List ℕ).filter q = [] := by
          have : q k = false := by
            rcases Bool.eq_false_or_eq_true (q k) with hf | ht
            · exact absurd ((hq k (by omega)).mp hf) (by omega)
            · exact ht
          simp [List.filter, this]
        rw [h1, h2]
        simp

theorem eligible_single (T : List ℚ) (p : ℕ) (hp : p < T.length)
    (hpos : 0 < T.getD p 0)
    (hz : ∀ i, i < T.length → i ≠ p → T.getD i 0 = 0) :
    eligiblePixels T = [p] := by
  unfold eligiblePixels
  refine filter_range_single _ p T.length hp ?_
  intro i hi
  constructor
  · intro hqi
    by_contra hne
    rw [decide_eq_true_iff, hz i hi hne] at hqi
    exact absurd hqi (lt_irrefl 0)
  · intro hieq
    subst hieq
    exact decide_eq_true_iff.mpr hpos

/-- C9: for a spatial template whose weight is nonzero on exactly one pixel
`p`, every call of `sample_position` (on a unit-variate stream entry)
returns `p`: the only eligible pixel is `p`, the candidate is therefore `p`,
and the acceptance test against the per-pixel maximum weight — which is the
weight at `p` itself — always passes. -/
theorem sample_position_single (T : List ℚ) (p : ℕ) (r s : ℚ)
    (rest : List (ℚ × ℚ)) (hp : p < T.length) (hpos : 0 < T.getD p 0)
    (hz : ∀ i, i < T.length → i ≠ p → T.getD i 0 = 0)
    (hr0 : 0 ≤ r) (hr1 : r < 1) (hs0 : 0 ≤ s) (hs1 : s ≤ 1) :
    sample_position T ((r, s) :: rest) = some (p, rest) := by
  have he : eligiblePixels T = [p] := eligible_single T p hp hpos hz
  have hpick : uniformPick (eligiblePixels T) r = p := by
    rw [he]
    unfold uniformPick
    have hfl : ⌊r * (([p] : List ℕ).length : ℚ)⌋ = 0 := by
      simp only [List.length_singleton, Nat.cast_one, mul_one]
      exact Int.floor_eq_zero_iff.mpr ⟨hr0, hr1⟩
    rw [hfl]
    rfl
  have hmax : maxWeight T = T.getD p 0 := maxWeight_single T p hp hpos hz
  simp only [sample_position]
  rw [hpick, hmax, if_pos]
  calc s * T.getD p 0 ≤ 1 * T.getD p 0 :=
        mul_le_mul_of_nonneg_right hs1 (le_of_lt hpos)
    _ = T.getD p 0 := one_mul _

/-- Witness for C9: the template [0, 3, 0] has its single nonzero weight at
pixel 1, and a concrete call returns pixel 1. -/
theorem sample_position_single_witness :
    sample_position [0, 3, 0] [(1/2, 1/2)] = some (1, []) :=
  sample_position_single [0, 3, 0] 1 (1/2) (1/2) [] (by norm_num)
    (by norm_num) (by decide) (by norm_num) (by norm_num) (by norm_num)
    (by norm_num)

end NPTFitSim
